import Mathlib

/-!
Verification of the drummers-cue pipeline: a shallow embedding of the cue
scheduling (src/src/cue_builder.py), the silence-based cues and silence
detection and tempo post-processing and click synthesis (src/app.py), the
drum-feature extraction and diff engine (src/src/drum_features.py) and the
transcription retry logic (src/src/transcribe_adtof.py), with theorems
about the properties stated in the specification.

Python floats are modelled as exact rationals; Python `int()` truncation is
modelled by `truncQ`; Python dicts keyed by the fixed class names are
modelled as functions from `String`; Python sets are modelled as lists that
carry a representation order, with sorted() rendering them canonical; the
stable Python list sort is modelled by insertion sort (stable sorts of the
same keyed list agree elementwise).
-/

set_option maxRecDepth 100000

namespace DrummersCue

/-- Python `int()` applied to a float: truncation toward zero. -/
def truncQ (q : ℚ) : ℤ := q.num.tdiv q.den

/-- Post-processing of the raw librosa tempo estimate in `estimate_bpm`
(src/app.py): double when below 60, halve when above 200, then
`np.clip(bpm, 60, 200)`. -/
def bpm_post (bpm : ℚ) : ℚ :=
  let b1 := if bpm < 60 then bpm * 2 else bpm
  let b2 := if b1 > 200 then b1 / 2 else b1
  max 60 (min 200 b2)

/-- Modelled from the spec wording for comparison: the octave correction as
two mutually exclusive cases (below 60 double, above 200 halve), then clamp
to the band. -/
def bpm_post_spec (bpm : ℚ) : ℚ :=
  let b := if bpm < 60 then bpm * 2 else if bpm > 200 then bpm / 2 else bpm
  max 60 (min 200 b)

/-! ## Cue builder data model (src/src/cue_builder.py) -/

/-- A song segment as consumed by the cue builder (label, start, end). -/
structure Seg where
  label : String
  start : ℚ
  stop : ℚ
deriving DecidableEq

/-- A section diff as produced by compute_diffs (src/src/drum_features.py).
Python sets are modelled as lists carrying a representation order. -/
structure DiffR where
  added : List String
  removed : List String
  density_delta : ℚ
  vel_delta : ℚ
deriving DecidableEq

/-- A section feature record as produced by compute_section_features
(src/src/drum_features.py).  The Python counts dict keyed by the six fixed
class names is modelled as a function from `String`. -/
structure Feat where
  count : ℕ
  duration : ℚ
  density : ℚ
  mean_vel : ℚ
  counts : String → ℕ
  present_stable : List String

/-- Default diff used for out-of-range indexing in the embedding; also the
empty diff emitted at index 0 by compute_diffs. -/
def dfltDiff : DiffR := { added := [], removed := [], density_delta := 0, vel_delta := 0 }

/-- Default feature record used for out-of-range indexing in the embedding. -/
def dfltFeat : Feat :=
  { count := 0, duration := 0, density := 0, mean_vel := 0,
    counts := fun _ => 0, present_stable := [] }

/-- The RU_PART label translation table of cue_builder.py. -/
def RU_PART (l : String) : Option String :=
  if l = "intro" then some "интро"
  else if l = "verse" then some "куплет"
  else if l = "chorus" then some "припев"
  else if l = "bridge" then some "бридж"
  else if l = "outro" then some "аутро"
  else if l = "silence" then some "тишина"
  else if l = "instrumental" then some "инструментал"
  else if l = "inst" then some "инструментал"
  else if l = "transition" then some "переход"
  else if l = "break" then some "брейк"
  else if l = "drop" then some "дроп"
  else none

/-- The RU_INST instrument translation of cue_builder.py, with the
dict-get default of the key itself. -/
def RU_INST (x : String) : String :=
  if x = "kick" then "бочка"
  else if x = "snare" then "рабочий"
  else if x = "hihat" then "хай-хэт"
  else if x = "toms" then "томы"
  else if x = "cymbals" then "тарелки"
  else if x = "other" then "прочее"
  else x

/-- ru_label (cue_builder.py): normalize, look up RU_PART, defaulting to the
original label, or to the generic word when the label is empty. -/
def ru_label (lbl : String) : String :=
  let l := lbl.trim.toLower
  match RU_PART l with
  | some r => r
  | none => if lbl = "" then "часть" else lbl

/-- Python sorted() on a collection of strings, modelled by the stable
insertion sort (Python's sort is stable, and stable sorts agree). -/
def sortStr (l : List String) : List String :=
  List.insertionSort (· ≤ ·) l

/-- ru_inst_set (cue_builder.py): sort the instrument names and render the
translated names separated by commas. -/
def ru_inst_set (s : List String) : String :=
  String.intercalate ", " ((sortStr s).map RU_INST)

/-- The lead-time computation of cue_builder.py (bars to seconds, with a 4/4
assumption and a 2 seconds-per-bar fallback). -/
def lead_seconds_from_bars (tempo : ℚ) (lead_bars : ℤ) (assume44 : Bool) : ℚ :=
  if !assume44 then (lead_bars : ℚ) * 2
  else
    let beat_s := 60 / max (1 / 1000000) tempo
    let bar_s := 4 * beat_s
    (lead_bars : ℚ) * bar_s

/-- The section phrase composed by cue_builder.py from label, diff and
feature data. -/
def section_phrase (label : String) (diff : DiffR) (feat : Feat) (thr : ℚ) : String :=
  let parts : List String :=
    (if feat.density ≤ thr then ["почти без барабанов"] else []) ++
    (if diff.density_delta > 9 / 10 then ["плотнее"]
     else if diff.density_delta < -(9 / 10) then ["реже"] else []) ++
    (if diff.added ≠ [] then ["входит: " ++ ru_inst_set diff.added] else []) ++
    (if diff.removed ≠ [] then ["уходит: " ++ ru_inst_set diff.removed] else [])
  let tl := if parts ≠ [] then ". " ++ String.intercalate "; " parts else ""
  ru_label label ++ tl

/-- A scheduled cue of build_cues_with_drum_info: integer milliseconds and
spoken text. -/
structure Cue where
  t_ms : ℤ
  text : String
deriving DecidableEq

/-- The raw cue list built by the loop of build_cues_with_drum_info before
sorting and dedup: an initial cue at 0 ms for the first section, then one
cue per subsequent segment at max(0, start - lead) seconds. -/
def raw_cues (segments : List Seg) (tempo : ℚ) (lead_bars : ℤ)
    (diffs : List DiffR) (feats : List Feat) (thr : ℚ) (assume44 : Bool) : List Cue :=
  match segments with
  | [] => []
  | s0 :: rest =>
    let lead_s := lead_seconds_from_bars tempo lead_bars assume44
    let first : Cue :=
      { t_ms := 0,
        text := "Старт. " ++ section_phrase s0.label (diffs.getD 0 dfltDiff)
          (feats.getD 0 dfltFeat) thr ++ "." }
    first :: (rest.enumFrom 1).map (fun p =>
      let t_cue := max 0 (p.2.start - lead_s)
      let phrase := section_phrase p.2.label (diffs.getD p.1 dfltDiff)
        (feats.getD p.1 dfltFeat) thr
      { t_ms := truncQ (t_cue * 1000),
        text := "Через " ++ toString lead_bars ++ " такта — " ++ phrase ++ "." })

/-- The greedy first-wins dedup of build_cues_with_drum_info: keep a cue only
when it is at least 250 ms after the previously kept cue. -/
def dedup250 : List Cue → ℤ → List Cue
  | [], _ => []
  | c :: rest, last =>
    if 250 ≤ c.t_ms - last then c :: dedup250 rest c.t_ms
    else dedup250 rest last

/-- build_cues_with_drum_info (cue_builder.py): raw cues, stable sort by
time, then greedy dedup starting from the sentinel -10000. -/
def build_cues_with_drum_info (segments : List Seg) (tempo : ℚ) (lead_bars : ℤ)
    (diffs : List DiffR) (feats : List Feat) (thr : ℚ) (assume44 : Bool) : List Cue :=
  match segments with
  | [] => []
  | _ :: _ =>
    let cues := raw_cues segments tempo lead_bars diffs feats thr assume44
    let sorted := List.insertionSort (fun a b => a.t_ms ≤ b.t_ms) cues
    dedup250 sorted (-10000)

/-! ## Silence-based cues (src/app.py, cue_events loop) -/

/-- A cue event of app.py: time in seconds and spoken text. -/
structure CueEvent where
  t_sec : ℚ
  text : String
deriving DecidableEq

/-- The silence-cue construction of app.py: one warning cue at
max(start - 0.7, 0) and one re-entry cue at max(end - 0.25, 0) per silence
region, then a stable sort by time (and no dedup). -/
def silence_cue_events (silences : List (ℚ × ℚ)) (lang : String) : List CueEvent :=
  let evs := (silences.map (fun se =>
    [{ t_sec := max (se.1 - 7 / 10) 0,
       text := if lang = "ru" then "Пауза" else "Break" },
     { t_sec := max (se.2 - 1 / 4) 0,
       text := if lang = "ru" then "Вход" else "In" }])).flatten
  List.insertionSort (fun a b => a.t_sec ≤ b.t_sec) evs

instance : IsTotal Cue (fun a b => a.t_ms ≤ b.t_ms) :=
  ⟨fun a b => Int.le_total a.t_ms b.t_ms⟩

instance : IsTrans Cue (fun a b => a.t_ms ≤ b.t_ms) :=
  ⟨fun _ _ _ hab hbc => le_trans hab hbc⟩

instance : IsTotal CueEvent (fun a b => a.t_sec ≤ b.t_sec) :=
  ⟨fun a b => le_total a.t_sec b.t_sec⟩

instance : IsTrans CueEvent (fun a b => a.t_sec ≤ b.t_sec) :=
  ⟨fun _ _ _ hab hbc => le_trans hab hbc⟩

/-! ## Silence detector (src/app.py, detect_silences)

The RMS/decibel thresholding is a numeric library computation; the
detector's region logic is verified over an arbitrary boolean silence mask
(one entry per analysis frame), which strictly generalizes the masks the
thresholding can produce. -/

/-- Seconds position of frame k: k * hop / sr. -/
def frameSec (hop sr k : ℕ) : ℚ := ((k * hop : ℕ) : ℚ) / (sr : ℚ)

/-- The frame scan loop of detect_silences: walk the silence mask carrying
the index where the current silent run started (if any); close a region at
each silent-to-loud transition, keeping it only when it meets the minimum
duration in milliseconds.  Returns the regions and the still-open run. -/
def silLoop (hop sr : ℕ) (minms : ℚ) : List Bool → ℕ → Option ℕ → List (ℚ × ℚ) × Option ℕ
  | [], _, st => ([], st)
  | true :: rest, idx, none => silLoop hop sr minms rest (idx + 1) (some idx)
  | true :: rest, idx, some s0 => silLoop hop sr minms rest (idx + 1) (some s0)
  | false :: rest, idx, none => silLoop hop sr minms rest (idx + 1) none
  | false :: rest, idx, some s0 =>
    let s := frameSec hop sr s0
    let e := frameSec hop sr idx
    let r := silLoop hop sr minms rest (idx + 1) none
    (if minms ≤ (e - s) * 1000 then (s, e) :: r.1 else r.1, r.2)

/-- detect_silences (src/app.py) from the silence mask on: scan the mask,
close a still-open tail run at the waveform duration len(y)/sr, then apply
the final 0.35 s artifact filter. -/
def detect_silences (silent : List Bool) (hop sr ylen : ℕ) (minms : ℚ) : List (ℚ × ℚ) :=
  let p := silLoop hop sr minms silent 0 none
  let tl : List (ℚ × ℚ) :=
    match p.2 with
    | none => []
    | some s0 =>
      let s := frameSec hop sr s0
      let e := (ylen : ℚ) / (sr : ℚ)
      if minms ≤ (e - s) * 1000 then [(s, e)] else []
  (p.1 ++ tl).filter (fun r => decide (7 / 20 ≤ r.2 - r.1))

/-! ## Drum features (src/src/drum_features.py) -/

/-- A transcribed drum note: start, end, MIDI pitch, velocity. -/
structure Note where
  start : ℚ
  stop : ℚ
  pitch : ℤ
  vel : ℤ
deriving DecidableEq

/-- GM kick pitches. -/
def KICK : List ℤ := [35, 36]

/-- GM snare pitches. -/
def SNARE : List ℤ := [38, 40]

/-- GM hi-hat pitches. -/
def HAT : List ℤ := [42, 44, 46]

/-- GM tom pitches. -/
def TOMS : List ℤ := [41, 43, 45, 47, 48, 50]

/-- GM cymbal pitches. -/
def CYMS : List ℤ := [49, 51, 52, 53, 55, 57, 59]

/-- drum_class (drum_features.py): map a MIDI pitch to one of the six
instrument classes. -/
def drum_class (pitch : ℤ) : String :=
  if pitch ∈ KICK then "kick"
  else if pitch ∈ SNARE then "snare"
  else if pitch ∈ HAT then "hihat"
  else if pitch ∈ TOMS then "toms"
  else if pitch ∈ CYMS then "cymbals"
  else "other"

/-- The six class keys in the insertion order of the Python counts dict. -/
def CLASS_KEYS : List String := ["kick", "snare", "hihat", "toms", "cymbals", "other"]

/-- Pointwise increment of the counts dict at one key. -/
def incr (c : String → ℕ) (key : String) : String → ℕ :=
  fun k => if k = key then c k + 1 else c k

/-- The per-section feature extraction of drum_features.py: notes starting
in [t0, t1), duration floored at 1e-6, per-class counts, density and mean
velocity (present_stable is attached by compute_section_features). -/
def section_features (notes : List Note) (t0 t1 : ℚ) : Feat :=
  let sec := notes.filter (fun n => decide (t0 ≤ n.start ∧ n.start < t1))
  let dur := max (1 / 1000000) (t1 - t0)
  let counts := sec.foldl (fun c n => incr c (drum_class n.pitch)) (fun _ => 0)
  { count := sec.length,
    duration := dur,
    density := (sec.length : ℚ) / dur,
    mean_vel := if sec.length = 0 then 0
      else (sec.map (fun n => (n.vel : ℚ))).sum / (sec.length : ℚ),
    counts := counts,
    present_stable := [] }

/-- compute_section_features (drum_features.py): one feature record per
segment, with the stable-presence set of classes hit at least
min_hits_per_class times. -/
def compute_section_features (notes : List Note) (segments : List Seg)
    (min_hits : ℕ) : List Feat :=
  segments.map (fun seg =>
    let f := section_features notes seg.start seg.stop
    { f with present_stable := CLASS_KEYS.filter (fun k => decide (min_hits ≤ f.counts k)) })

/-- Sum of the counts dict over the six class keys. -/
def sumSix (c : String → ℕ) : ℕ :=
  c "kick" + c "snare" + c "hihat" + c "toms" + c "cymbals" + c "other"

/-- The diff between one section-feature record and its predecessor
(body of the else branch of compute_diffs). -/
def diffOf (prev cur : Feat) : DiffR :=
  { added := cur.present_stable.filter (fun x => decide (x ∉ prev.present_stable)),
    removed := prev.present_stable.filter (fun x => decide (x ∉ cur.present_stable)),
    density_delta := cur.density - prev.density,
    vel_delta := cur.mean_vel - prev.mean_vel }

/-- The loop of compute_diffs for indices at least 1, carrying the previous
feature record. -/
def diffsAux (prev : Feat) : List Feat → List DiffR
  | [] => []
  | cur :: rest => diffOf prev cur :: diffsAux cur rest

/-- compute_diffs (drum_features.py): an empty/zero diff for the first
section, then each section diffed against its immediate predecessor. -/
def compute_diffs (feats : List Feat) : List DiffR :=
  match feats with
  | [] => []
  | f0 :: rest => dfltDiff :: diffsAux f0 rest

/-! ## Click synthesis (src/app.py, make_click_wav)

The sine and cosine of the burst are transcendental; they enter the
embedding as opaque function parameters (sinF, cosF, and the constant piQ),
so every theorem below holds for the actual float burst as well. -/

/-- The beat-time while loop of make_click_wav: times 0, bp, 2bp, ... while
below the duration, with fuel bounding the iteration count. -/
def beatTimesAux (duration bp : ℚ) : ℕ → ℚ → List ℚ
  | 0, _ => []
  | fuel + 1, t => if t < duration then t :: beatTimesAux duration bp fuel (t + bp) else []

/-- Sufficient fuel for the beat loop. -/
def clickFuel (duration bp : ℚ) : ℕ := (⌈duration / bp⌉).toNat + 1

/-- The 12 ms Hann-windowed sine burst of make_click_wav at 70% amplitude:
0.7 * sin(2*pi*hz*i/sr) * (0.5 - 0.5*cos(2*pi*i/(len-1))). -/
def clickBurst (sr : ℕ) (click_hz piQ : ℚ) (sinF cosF : ℚ → ℚ) : List ℚ :=
  let click_len := (truncQ (12 / 1000 * (sr : ℚ))).toNat
  (List.range click_len).map (fun i =>
    7 / 10 * sinF (2 * piQ * click_hz * ((i : ℚ) / (sr : ℚ))) *
      (1 / 2 - 1 / 2 * cosF (2 * piQ * (i : ℚ) / ((click_len : ℚ) - 1))))

/-- Additive slice write out[i:j] += burst[:j-i] with j = min(i+len, n),
on the buffer viewed as a function from sample index. -/
def addBurst (f : ℕ → ℚ) (i : ℕ) (burst : List ℚ) (n : ℕ) : ℕ → ℚ :=
  fun k => if i ≤ k ∧ k < min (i + burst.length) n then f k + burst.getD (k - i) 0 else f k

/-- make_click_wav (src/app.py): an int(duration*sr)-sample buffer, a burst
added at int(t*sr) for every beat time t, and a final hard clip of every
sample to [-1, 1]. -/
def make_click_wav (duration : ℚ) (sr : ℕ) (bpm click_hz piQ : ℚ)
    (sinF cosF : ℚ → ℚ) : List ℚ :=
  let beat_period := 60 / bpm
  let n := (truncQ (duration * (sr : ℚ))).toNat
  let burst := clickBurst sr click_hz piQ sinF cosF
  let times := beatTimesAux duration beat_period (clickFuel duration beat_period) 0
  let raw := times.foldl (fun f t => addBurst f (truncQ (t * (sr : ℚ))).toNat burst n) (fun _ => 0)
  (List.range n).map (fun k => max (-1) (min 1 (raw k)))

/-! ## Transcription retry (src/src/transcribe_adtof.py)

The subprocess invocation is an external effect; it enters the embedding as
a function from a strategy to a success-or-error outcome. -/

/-- The candidate loop of run_adtof_to_midi: try each strategy in order,
return on first success, record the failure otherwise; raise carrying the
last recorded error after the list is exhausted. -/
def tryStrategies {α ε : Type} (run : α → Except ε Unit) :
    List α → Option ε → Except (Option ε) Unit
  | [], last => Except.error last
  | c :: rest, _ =>
    match run c with
    | Except.ok _ => Except.ok ()
    | Except.error e => tryStrategies run rest (some e)

/-- run_adtof_to_midi (transcribe_adtof.py), starting with no recorded
error. -/
def run_adtof_to_midi {α ε : Type} (run : α → Except ε Unit)
    (candidates : List α) : Except (Option ε) Unit :=
  tryStrategies run candidates none

/-! ## Concrete scenario data -/

/-- Scenario C segments: boundaries 0, 10, 20 seconds. -/
def segsC : List Seg := [⟨"intro", 0, 10⟩, ⟨"verse", 10, 20⟩, ⟨"chorus", 20, 30⟩]

/-- Scenario C diffs: empty diffs for all three sections. -/
def diffsC : List DiffR := [dfltDiff, dfltDiff, dfltDiff]

/-- A feature record of density 1 used by Scenario C. -/
def featC : Feat :=
  { count := 0, duration := 10, density := 1, mean_vel := 0,
    counts := fun _ => 0, present_stable := [] }

/-- Scenario C feature list. -/
def featsC : List Feat := [featC, featC, featC]

/-- Scenario D predecessor features: stable presence kick and snare. -/
def featKS : Feat :=
  { count := 0, duration := 1, density := 0, mean_vel := 0,
    counts := fun _ => 0, present_stable := ["kick", "snare"] }

/-- Scenario D successor features: stable presence kick, snare, hihat. -/
def featKSH : Feat :=
  { count := 0, duration := 1, density := 0, mean_vel := 0,
    counts := fun _ => 0, present_stable := ["kick", "snare", "hihat"] }

/-- A diff whose added set is represented in the order snare, kick. -/
def diffP1 : DiffR := { added := ["snare", "kick"], removed := [], density_delta := 0, vel_delta := 0 }

/-- The same diff as diffP1 with the added set in the order kick, snare. -/
def diffP2 : DiffR := { added := ["kick", "snare"], removed := [], density_delta := 0, vel_delta := 0 }

/-- A concrete strategy runner for witnesses: strategy 2 succeeds, all
others fail with their own number. -/
def runW : ℕ → Except ℕ Unit := fun n => if n = 2 then Except.ok () else Except.error n

/-! # Theorems -/

/-- C3: the tempo post-processing doubles a raw estimate below 60, halves one
above 200, and clamps to [60, 200]; it agrees with the spec's exclusive-case
description, corrects 50 to 100 and 210 to 105, leaves 130 unchanged, and
always lands in [60, 200]. -/
theorem claim_C3 (raw : ℚ) :
    bpm_post raw = bpm_post_spec raw ∧
    60 ≤ bpm_post raw ∧ bpm_post raw ≤ 200 ∧
    bpm_post 50 = 100 ∧ bpm_post 210 = 105 ∧ bpm_post 130 = 130 := by
  refine ⟨?_, ?_, ?_, by norm_num [bpm_post], by norm_num [bpm_post],
    by norm_num [bpm_post]⟩
  · simp only [bpm_post, bpm_post_spec]
    by_cases h1 : raw < 60
    · have h2 : ¬ (raw * 2 > 200) := by linarith
      simp only [if_pos h1, if_neg h2]
    · by_cases h2 : raw > 200
      · simp only [if_neg h1, if_pos h2]
      · simp only [if_neg h1, if_neg h2]
  · simp only [bpm_post]
    exact le_max_left _ _
  · simp only [bpm_post]
    exact max_le (by norm_num) (min_le_left _ _)

/-- The greedy dedup yields a chain with at least 250 ms between consecutive
kept cues, and its first kept cue is at least 250 ms after the running
last-kept time. -/
theorem dedup250_spec (l : List Cue) : ∀ last : ℤ,
    List.Chain' (fun a b => a.t_ms + 250 ≤ b.t_ms) (dedup250 l last) ∧
    (∀ c, (dedup250 l last).head? = some c → last + 250 ≤ c.t_ms) := by
  induction l with
  | nil => intro last; simp [dedup250]
  | cons c rest ih =>
    intro last
    simp only [dedup250]
    by_cases h : 250 ≤ c.t_ms - last
    · rw [if_pos h]
      refine ⟨?_, ?_⟩
      · rw [List.chain'_cons']
        exact ⟨fun y hy => (ih c.t_ms).2 y hy, (ih c.t_ms).1⟩
      · intro d hd
        simp only [List.head?_cons, Option.some.injEq] at hd
        subst hd; omega
    · rw [if_neg h]
      exact ⟨(ih last).1, (ih last).2⟩

/-- C1 counterexample: for the two valid silence regions [3, 4] and
[4.35, 5] (each at least 350 ms long, ordered, non-overlapping), the cue
list produced by the silence-cue scheduler of app.py contains two
consecutive entries (3.65 s and 3.75 s) that are closer than 250 ms, so the
claimed 250 ms spacing of scheduler output fails on this code path. -/
theorem claim_C1_cex :
    ¬ List.Chain' (fun a b : CueEvent => a.t_sec + 1 / 4 ≤ b.t_sec)
      (silence_cue_events [(3, 4), (87 / 20, 5)] "ru") := by
  have h : silence_cue_events [(3, 4), (87 / 20, 5)] "ru" =
      [⟨23 / 10, "Пауза"⟩, ⟨73 / 20, "Пауза"⟩, ⟨15 / 4, "Вход"⟩, ⟨19 / 4, "Вход"⟩] := by
    with_unfolding_all decide
  rw [h]
  intro hc
  rcases hc with _ | ⟨_, hc⟩
  rcases hc with _ | ⟨h2, _⟩
  have : ¬ ((73 / 20 : ℚ) + 1 / 4 ≤ 15 / 4) := by norm_num
  exact this h2

/-- C1 (amended): the section-cue scheduler build_cues_with_drum_info always
returns a time-nondecreasing list whose consecutive entries are at least
250 ms apart (greedy first-wins dedup); the silence-cue list of app.py is
sorted, hence non-decreasing in time, but is not deduplicated. -/
theorem claim_C1_amended :
    (∀ (segments : List Seg) (tempo : ℚ) (lead_bars : ℤ) (diffs : List DiffR)
      (feats : List Feat) (thr : ℚ) (a44 : Bool),
      List.Chain' (fun a b : Cue => a.t_ms + 250 ≤ b.t_ms)
        (build_cues_with_drum_info segments tempo lead_bars diffs feats thr a44) ∧
      List.Chain' (fun a b : Cue => a.t_ms ≤ b.t_ms)
        (build_cues_with_drum_info segments tempo lead_bars diffs feats thr a44)) ∧
    (∀ (silences : List (ℚ × ℚ)) (lang : String),
      List.Pairwise (fun a b : CueEvent => a.t_sec ≤ b.t_sec)
        (silence_cue_events silences lang)) := by
  constructor
  · intro segments tempo lead_bars diffs feats thr a44
    have hchain : List.Chain' (fun a b : Cue => a.t_ms + 250 ≤ b.t_ms)
        (build_cues_with_drum_info segments tempo lead_bars diffs feats thr a44) := by
      cases segments with
      | nil => simp [build_cues_with_drum_info]
      | cons s0 rest =>
        simp only [build_cues_with_drum_info]
        exact (dedup250_spec _ _).1
    exact ⟨hchain, hchain.imp (fun h => by omega)⟩
  · intro silences lang
    simp only [silence_cue_events]
    exact List.sorted_insertionSort _ _

/-- Helper: projecting the times out of the per-segment loop of raw_cues
gives exactly the max(0, boundary - lead) schedule, independently of the
enumeration indices (which only feed the cue texts). -/
theorem raw_cues_map_tms (rest : List Seg) : ∀ (n : ℕ) (tempo : ℚ) (lead_bars : ℤ)
    (diffs : List DiffR) (feats : List Feat) (thr : ℚ) (a44 : Bool),
    ((rest.enumFrom n).map (fun p =>
      ({ t_ms := truncQ (max 0 (p.2.start - lead_seconds_from_bars tempo lead_bars a44) * 1000),
         text := "Через " ++ toString lead_bars ++ " такта — " ++
           section_phrase p.2.label (diffs.getD p.1 dfltDiff) (feats.getD p.1 dfltFeat) thr
           ++ "." } : Cue))).map Cue.t_ms =
    rest.map (fun s =>
      truncQ (max 0 (s.start - lead_seconds_from_bars tempo lead_bars a44) * 1000)) := by
  induction rest with
  | nil => intros; rfl
  | cons s rs ih =>
    intro n tempo lead_bars diffs feats thr a44
    simp only [List.enumFrom_cons, List.map_cons]
    exact congrArg _ (ih (n + 1) tempo lead_bars diffs feats thr a44)

/-- C2: the lead time is lead_bars times 4 beats of 60/tempo seconds under
the 4/4 assumption (for any tempo at or above the 1e-6 guard), else 2
seconds per bar; the raw cue schedule of a non-empty segment list starts at
0 ms for the first section and puts every later cue at
max(0, boundary - lead) seconds; with boundaries [0, 10, 20], tempo 120 and
lead_bars 2 the final cue list fires the second section cue at 6000 ms. -/
theorem claim_C2 (segments : List Seg) (tempo : ℚ) (lead_bars : ℤ)
    (diffs : List DiffR) (feats : List Feat) (thr : ℚ) (h : segments ≠ []) :
    (∀ (t : ℚ) (b : ℤ), (1 / 1000000 : ℚ) ≤ t →
      lead_seconds_from_bars t b true = (b : ℚ) * (4 * (60 / t))) ∧
    (∀ (t : ℚ) (b : ℤ), lead_seconds_from_bars t b false = (b : ℚ) * 2) ∧
    ((raw_cues segments tempo lead_bars diffs feats thr true).map Cue.t_ms =
      0 :: segments.tail.map (fun s =>
        truncQ (max 0 (s.start - lead_seconds_from_bars tempo lead_bars true) * 1000))) ∧
    ((build_cues_with_drum_info segsC 120 2 diffsC featsC (1 / 4) true).map Cue.t_ms =
      [0, 6000, 16000]) := by
  refine ⟨?_, ?_, ?_, by with_unfolding_all decide⟩
  · intro t b ht
    simp only [lead_seconds_from_bars, Bool.not_true, Bool.false_eq_true, if_false]
    rw [max_eq_right ht]
  · intro t b
    simp [lead_seconds_from_bars]
  · obtain ⟨s0, rest, rfl⟩ := List.exists_cons_of_ne_nil h
    simp only [raw_cues, List.map_cons, List.tail_cons]
    exact congrArg _ (raw_cues_map_tms rest 1 tempo lead_bars diffs feats thr true)

/-- C2 witness: the raw-schedule description instantiated on the Scenario C
data. -/
theorem claim_C2_witness :
    (raw_cues segsC 120 2 diffsC featsC (1 / 4) true).map Cue.t_ms =
      0 :: segsC.tail.map (fun s =>
        truncQ (max 0 (s.start - lead_seconds_from_bars 120 2 true) * 1000)) :=
  (claim_C2 segsC 120 2 diffsC featsC (1 / 4) (by decide)).2.2.1

/-- C5: every silence region (s, e) contributes a pre-warning cue at
max(s - 0.7, 0) and a re-entry cue at max(e - 0.25, 0) to the app.py cue
list; the silence [3, 4] yields exactly the warning cue at 2.3 s and the
resume cue at 3.75 s. -/
theorem claim_C5 (silences : List (ℚ × ℚ)) (lang : String) (s e : ℚ)
    (h : (s, e) ∈ silences) :
    (({ t_sec := max (s - 7 / 10) 0,
        text := if lang = "ru" then "Пауза" else "Break" } : CueEvent)
      ∈ silence_cue_events silences lang) ∧
    (({ t_sec := max (e - 1 / 4) 0,
        text := if lang = "ru" then "Вход" else "In" } : CueEvent)
      ∈ silence_cue_events silences lang) ∧
    silence_cue_events [(3, 4)] "ru" = [⟨23 / 10, "Пауза"⟩, ⟨15 / 4, "Вход"⟩] := by
  refine ⟨?_, ?_, by with_unfolding_all decide⟩
  · simp only [silence_cue_events]
    rw [(List.perm_insertionSort _ _).mem_iff]
    refine List.mem_flatten.mpr ⟨_, List.mem_map_of_mem _ h, ?_⟩
    exact List.mem_cons_self _ _
  · simp only [silence_cue_events]
    rw [(List.perm_insertionSort _ _).mem_iff]
    refine List.mem_flatten.mpr ⟨_, List.mem_map_of_mem _ h, ?_⟩
    exact List.mem_cons_of_mem _ (List.mem_cons_self _ _)

/-- C5 witness: the pre-warning cue of the silence [3, 4]. -/
theorem claim_C5_witness :
    (({ t_sec := max ((3 : ℚ) - 7 / 10) 0,
        text := if "ru" = "ru" then "Пауза" else "Break" } : CueEvent)
      ∈ silence_cue_events [(3, 4)] "ru") :=
  (claim_C5 [(3, 4)] "ru" 3 4 (List.mem_singleton.mpr rfl)).1

/-- Helper: the diff loop keeps the input length. -/
theorem diffsAux_length (l : List Feat) : ∀ prev, (diffsAux prev l).length = l.length := by
  induction l with
  | nil => intro _; rfl
  | cons c rest ih => intro prev; simp [diffsAux, ih]

/-- Helper: the diff loop computes, at index j, the diff of the feature at
j against the feature at j - 1 of the prev-extended list. -/
theorem diffsAux_getD (l : List Feat) : ∀ (prev : Feat) (j : ℕ), j < l.length →
    (diffsAux prev l).getD j dfltDiff =
      diffOf ((prev :: l).getD j dfltFeat) (l.getD j dfltFeat) := by
  induction l with
  | nil => intro prev j hj; simp at hj
  | cons cur rest ih =>
    intro prev j hj
    cases j with
    | zero => rfl
    | succ j =>
      simp only [diffsAux, List.getD_cons_succ]
      exact ih cur j (by simpa using hj)

/-- Helper: every diff emitted by the loop is a diff of two feature
records. -/
theorem mem_diffsAux (l : List Feat) : ∀ prev d, d ∈ diffsAux prev l →
    ∃ p c, d = diffOf p c := by
  induction l with
  | nil => intro prev d hd; cases hd
  | cons cur rest ih =>
    intro prev d hd
    cases hd with
    | head => exact ⟨prev, cur, rfl⟩
    | tail _ hd => exact ih cur d hd

/-- Helper: added and removed of a diff are disjoint, since both are
filters by membership in opposite directions. -/
theorem diffOf_disjoint (p c : Feat) (x : String) (hx : x ∈ (diffOf p c).added) :
    x ∉ (diffOf p c).removed := by
  simp only [diffOf, List.mem_filter, decide_eq_true_eq] at hx ⊢
  intro hr
  exact hx.2 hr.1

/-- C6: compute_diffs emits one diff per feature record, an empty/zero diff
at index 0, and at index i > 0 the set differences of the stable presences
and the density/velocity deltas against index i - 1; added and removed are
always disjoint, and stable presences kick+snare followed by
kick+snare+hihat yield added hihat and removed nothing. -/
theorem claim_C6 (feats : List Feat) :
    (compute_diffs feats).length = feats.length ∧
    (feats ≠ [] → (compute_diffs feats).head? = some dfltDiff) ∧
    (∀ i, 0 < i → i < feats.length →
      (compute_diffs feats).getD i dfltDiff =
        diffOf (feats.getD (i - 1) dfltFeat) (feats.getD i dfltFeat)) ∧
    (∀ d ∈ compute_diffs feats, ∀ x, x ∈ d.added → x ∉ d.removed) ∧
    (compute_diffs [featKS, featKSH]).map DiffR.added = [[], ["hihat"]] ∧
    (compute_diffs [featKS, featKSH]).map DiffR.removed = [[], []] := by
  refine ⟨?_, ?_, ?_, ?_, by with_unfolding_all decide, by with_unfolding_all decide⟩
  · cases feats with
    | nil => rfl
    | cons f0 rest => simp [compute_diffs, diffsAux_length]
  · intro h
    obtain ⟨f0, rest, rfl⟩ := List.exists_cons_of_ne_nil h
    rfl
  · intro i hi hlen
    cases feats with
    | nil => simp at hlen
    | cons f0 rest =>
      cases i with
      | zero => omega
      | succ j =>
        simp only [compute_diffs, List.getD_cons_succ, Nat.add_sub_cancel]
        exact diffsAux_getD rest f0 j (by simpa using hlen)
  · intro d hd x hx
    cases feats with
    | nil => cases hd
    | cons f0 rest =>
      cases hd with
      | head => simp [dfltDiff] at hx
      | tail _ hd =>
        obtain ⟨p, c, rfl⟩ := mem_diffsAux rest f0 d hd
        exact diffOf_disjoint p c x hx

/-- C6 witness: the index formula instantiated at index 1 of the Scenario D
feature pair. -/
theorem claim_C6_witness :
    (compute_diffs [featKS, featKSH]).getD 1 dfltDiff =
      diffOf ([featKS, featKSH].getD 0 dfltFeat) ([featKS, featKSH].getD 1 dfltFeat) :=
  (claim_C6 [featKS, featKSH]).2.2.1 1 (by decide) (by decide)

/-- Helper: drum_class always returns one of the six class keys. -/
theorem drum_class_mem_keys (p : ℤ) : drum_class p ∈ CLASS_KEYS := by
  unfold drum_class CLASS_KEYS
  split_ifs <;> simp

/-- Helper: incrementing the counts dict at one of the six keys raises the
six-key sum by one. -/
theorem sumSix_incr (c : String → ℕ) (key : String) (h : key ∈ CLASS_KEYS) :
    sumSix (incr c key) = sumSix c + 1 := by
  fin_cases h <;> simp [sumSix, incr] <;> omega

/-- Helper: folding the per-note increments over a note list adds the list
length to the six-key sum. -/
theorem sumSix_foldl (sec : List Note) : ∀ c : String → ℕ,
    sumSix (sec.foldl (fun c n => incr c (drum_class n.pitch)) c) = sumSix c + sec.length := by
  induction sec with
  | nil => intro c; simp
  | cons n rest ih =>
    intro c
    simp only [List.foldl_cons, List.length_cons]
    rw [ih (incr c (drum_class n.pitch)), sumSix_incr c _ (drum_class_mem_keys n.pitch)]
    omega

/-- Helper: in every per-section feature record the six per-class counts
sum to the section note count. -/
theorem sumSix_section_features (notes : List Note) (t0 t1 : ℚ) :
    sumSix (section_features notes t0 t1).counts = (section_features notes t0 t1).count := by
  simp only [section_features]
  rw [sumSix_foldl]
  simp [sumSix]

/-- C10: drum_class maps every integer MIDI pitch to exactly one of the six
classes: the five named pitch sets are pairwise disjoint, each maps to its
own class, every other pitch maps to "other"; consequently the per-class
counts of every section feature record sum to the section's note count. -/
theorem claim_C10 (p : ℤ) (notes : List Note) (t0 t1 : ℚ) (segments : List Seg)
    (min_hits : ℕ) :
    drum_class p ∈ CLASS_KEYS ∧
    (p ∈ KICK → drum_class p = "kick") ∧
    (p ∈ SNARE → drum_class p = "snare") ∧
    (p ∈ HAT → drum_class p = "hihat") ∧
    (p ∈ TOMS → drum_class p = "toms") ∧
    (p ∈ CYMS → drum_class p = "cymbals") ∧
    (p ∉ KICK → p ∉ SNARE → p ∉ HAT → p ∉ TOMS → p ∉ CYMS → drum_class p = "other") ∧
    (∀ x ∈ KICK, x ∉ SNARE ∧ x ∉ HAT ∧ x ∉ TOMS ∧ x ∉ CYMS) ∧
    (∀ x ∈ SNARE, x ∉ HAT ∧ x ∉ TOMS ∧ x ∉ CYMS) ∧
    (∀ x ∈ HAT, x ∉ TOMS ∧ x ∉ CYMS) ∧
    (∀ x ∈ TOMS, x ∉ CYMS) ∧
    sumSix (section_features notes t0 t1).counts = (section_features notes t0 t1).count ∧
    (∀ f ∈ compute_section_features notes segments min_hits,
      sumSix f.counts = f.count) := by
  have hKS : ∀ x ∈ KICK, x ∉ SNARE ∧ x ∉ HAT ∧ x ∉ TOMS ∧ x ∉ CYMS := by decide
  have hSN : ∀ x ∈ SNARE, x ∉ HAT ∧ x ∉ TOMS ∧ x ∉ CYMS := by decide
  have hHT : ∀ x ∈ HAT, x ∉ TOMS ∧ x ∉ CYMS := by decide
  have hTC : ∀ x ∈ TOMS, x ∉ CYMS := by decide
  refine ⟨drum_class_mem_keys p, ?_, ?_, ?_, ?_, ?_, ?_, hKS, hSN, hHT, hTC,
    sumSix_section_features notes t0 t1, ?_⟩
  · intro h; simp [drum_class, h]
  · intro h
    have hk : p ∉ KICK := fun hk => ((hKS p hk).1 h)
    simp [drum_class, hk, h]
  · intro h
    have hk : p ∉ KICK := fun hk => ((hKS p hk).2.1 h)
    have hs : p ∉ SNARE := fun hs => ((hSN p hs).1 h)
    simp [drum_class, hk, hs, h]
  · intro h
    have hk : p ∉ KICK := fun hk => ((hKS p hk).2.2.1 h)
    have hs : p ∉ SNARE := fun hs => ((hSN p hs).2.1 h)
    have hh : p ∉ HAT := fun hh => ((hHT p hh).1 h)
    simp [drum_class, hk, hs, hh, h]
  · intro h
    have hk : p ∉ KICK := fun hk => ((hKS p hk).2.2.2 h)
    have hs : p ∉ SNARE := fun hs => ((hSN p hs).2.2 h)
    have hh : p ∉ HAT := fun hh => ((hHT p hh).2 h)
    have ht : p ∉ TOMS := fun ht => ((hTC p ht) h)
    simp [drum_class, hk, hs, hh, ht, h]
  · intro h1 h2 h3 h4 h5
    simp [drum_class, h1, h2, h3, h4, h5]
  · intro f hf
    simp only [compute_section_features, List.mem_map] at hf
    obtain ⟨seg, _, rfl⟩ := hf
    exact sumSix_section_features notes seg.start seg.stop

/-- C10 witness: pitch 35 is classified as kick. -/
theorem claim_C10_witness : drum_class 35 = "kick" :=
  (claim_C10 35 [] 0 1 [] 0).2.1 (by decide)

/-- Helper: a prefix of failing strategies is skipped, leaving the loop on
the remaining strategies with some recorded error. -/
theorem tryStrategies_skip {α ε : Type} (run : α → Except ε Unit) :
    ∀ (pre : List α) (l : List α) (last : Option ε),
      (∀ p ∈ pre, ∃ e, run p = Except.error e) →
      ∃ last2, tryStrategies run (pre ++ l) last = tryStrategies run l last2 := by
  intro pre
  induction pre with
  | nil => intro l last _; exact ⟨last, rfl⟩
  | cons p ps ih =>
    intro l last hfail
    obtain ⟨e, he⟩ := hfail p (List.mem_cons_self p ps)
    simp only [List.cons_append, tryStrategies, he]
    exact ih l (some e) (fun q hq => hfail q (List.mem_cons_of_mem p hq))

/-- Helper: when every strategy fails, the loop returns the error recorded
for the last strategy. -/
theorem tryStrategies_all_fail {α ε : Type} (run : α → Except ε Unit) (err : α → ε) :
    ∀ (l : List α) (last : Option ε) (c : α),
      l.getLast? = some c →
      (∀ x ∈ l, run x = Except.error (err x)) →
      tryStrategies run l last = Except.error (some (err c)) := by
  intro l
  induction l with
  | nil => intro last c hc _; cases hc
  | cons x rest ih =>
    intro last c hc hfail
    have hx := hfail x (List.mem_cons_self x rest)
    cases rest with
    | nil =>
      simp only [List.getLast?_singleton, Option.some.injEq] at hc
      subst hc
      simp [tryStrategies, hx]
    | cons r rs =>
      have hc' : (r :: rs).getLast? = some c := by
        rwa [List.getLast?_cons_cons] at hc
      simp only [tryStrategies, hx]
      exact ih (some (err x)) c hc' (fun q hq => hfail q (List.mem_cons_of_mem x hq))

/-- C8: the transcription runner tries the strategies in order and returns
success as soon as one succeeds after any prefix of failures, regardless of
the strategies behind it; and when every strategy fails it returns the
fatal error carrying the last strategy's underlying error. -/
theorem claim_C8 {α ε : Type} (run : α → Except ε Unit) (candidates : List α)
    (err : α → ε) :
    (∀ (pre : List α) (c : α) (post : List α),
      candidates = pre ++ c :: post →
      (∀ p ∈ pre, ∃ e, run p = Except.error e) →
      run c = Except.ok () →
      run_adtof_to_midi run candidates = Except.ok ()) ∧
    (∀ c, candidates.getLast? = some c →
      (∀ x ∈ candidates, run x = Except.error (err x)) →
      run_adtof_to_midi run candidates = Except.error (some (err c))) := by
  constructor
  · intro pre c post hsplit hfail hok
    subst hsplit
    obtain ⟨last2, h2⟩ := tryStrategies_skip run pre (c :: post) none hfail
    rw [run_adtof_to_midi, h2]
    simp [tryStrategies, hok]
  · intro c hc hfail
    exact tryStrategies_all_fail run err candidates none c hc hfail

/-- C8 witness: with strategies 1, 2, 3 where 1 fails and 2 succeeds, the
runner succeeds. -/
theorem claim_C8_witness :
    run_adtof_to_midi runW [1, 2, 3] = Except.ok () :=
  (claim_C8 runW [1, 2, 3] id).1 [1] 2 [3] rfl
    (by
      intro p hp
      rw [List.mem_singleton] at hp
      subst hp
      exact ⟨1, rfl⟩)
    rfl

/-- Helper: sorting canonicalizes a string list up to permutation (stable
sort output is determined by the multiset under an antisymmetric total
order). -/
theorem sortStr_perm {l₁ l₂ : List String} (h : l₁.Perm l₂) : sortStr l₁ = sortStr l₂ :=
  List.eq_of_perm_of_sorted
    ((List.perm_insertionSort _ l₁).trans (h.trans (List.perm_insertionSort _ l₂).symm))
    (List.sorted_insertionSort _ l₁) (List.sorted_insertionSort _ l₂)

/-- Helper: the rendered instrument enumeration does not depend on the
representation order of the set. -/
theorem ru_inst_set_perm {l₁ l₂ : List String} (h : l₁.Perm l₂) :
    ru_inst_set l₁ = ru_inst_set l₂ := by
  rw [ru_inst_set, ru_inst_set, sortStr_perm h]

/-- Helper: the section phrase is unchanged when the added/removed sets are
replaced by permutations and the numeric deltas are equal. -/
theorem section_phrase_congr (label : String) (d₁ d₂ : DiffR) (feat : Feat) (thr : ℚ)
    (ha : d₁.added.Perm d₂.added) (hr : d₁.removed.Perm d₂.removed)
    (hd : d₁.density_delta = d₂.density_delta) :
    section_phrase label d₁ feat thr = section_phrase label d₂ feat thr := by
  have ha0 : (d₁.added = []) ↔ (d₂.added = []) := by
    rw [← List.length_eq_zero, ← List.length_eq_zero, ha.length_eq]
  have hr0 : (d₁.removed = []) ↔ (d₂.removed = []) := by
    rw [← List.length_eq_zero, ← List.length_eq_zero, hr.length_eq]
  simp only [section_phrase, hd, ru_inst_set_perm ha, ru_inst_set_perm hr, ne_eq,
    ha0, hr0]

/-- Helper: getD respects an elementwise relation between two lists,
given that the defaults are related. -/
theorem getD_rel {α : Type} {R : α → α → Prop} :
    ∀ {l₁ l₂ : List α}, List.Forall₂ R l₁ l₂ → ∀ {d₁ d₂ : α}, R d₁ d₂ →
    ∀ i, R (l₁.getD i d₁) (l₂.getD i d₂) := by
  intro l₁ l₂ h
  induction h with
  | nil => intro d₁ d₂ hd i; simpa [List.getD] using hd
  | cons hx _ ih =>
    intro d₁ d₂ hd i
    cases i with
    | zero => exact hx
    | succ j => exact ih hd j

/-- Helper: the raw cue list only depends on the diffs through their
density deltas and their added/removed sets viewed as sets. -/
theorem raw_cues_congr (segments : List Seg) (tempo : ℚ) (lead_bars : ℤ)
    (diffs₁ diffs₂ : List DiffR) (feats : List Feat) (thr : ℚ) (a44 : Bool)
    (h : List.Forall₂ (fun d₁ d₂ : DiffR => d₁.added.Perm d₂.added ∧
      d₁.removed.Perm d₂.removed ∧ d₁.density_delta = d₂.density_delta ∧
      d₁.vel_delta = d₂.vel_delta) diffs₁ diffs₂) :
    raw_cues segments tempo lead_bars diffs₁ feats thr a44 =
      raw_cues segments tempo lead_bars diffs₂ feats thr a44 := by
  have hrel : ∀ i, (diffs₁.getD i dfltDiff).added.Perm (diffs₂.getD i dfltDiff).added ∧
      (diffs₁.getD i dfltDiff).removed.Perm (diffs₂.getD i dfltDiff).removed ∧
      (diffs₁.getD i dfltDiff).density_delta = (diffs₂.getD i dfltDiff).density_delta ∧
      (diffs₁.getD i dfltDiff).vel_delta = (diffs₂.getD i dfltDiff).vel_delta :=
    fun i => getD_rel h ⟨List.Perm.refl _, List.Perm.refl _, rfl, rfl⟩ i
  cases segments with
  | nil => rfl
  | cons s0 rest =>
    simp only [raw_cues]
    congr 1
    · rw [section_phrase_congr s0.label _ _ (feats.getD 0 dfltFeat) thr
        (hrel 0).1 (hrel 0).2.1 (hrel 0).2.2.1]
    · apply List.map_congr_left
      intro p _
      rw [section_phrase_congr p.2.label _ _ (feats.getD p.1 dfltFeat) thr
        (hrel p.1).1 (hrel p.1).2.1 (hrel p.1).2.2.1]

/-- C9: the cue builder is a function of its inputs with the instrument
sets of the diffs taken as sets: replacing every added/removed set by any
permutation of it (keeping the numeric fields) yields the identical cue
list, text included, because the enumerations are rendered sorted. -/
theorem claim_C9 (segments : List Seg) (tempo : ℚ) (lead_bars : ℤ)
    (diffs₁ diffs₂ : List DiffR) (feats : List Feat) (thr : ℚ) (a44 : Bool)
    (h : List.Forall₂ (fun d₁ d₂ : DiffR => d₁.added.Perm d₂.added ∧
      d₁.removed.Perm d₂.removed ∧ d₁.density_delta = d₂.density_delta ∧
      d₁.vel_delta = d₂.vel_delta) diffs₁ diffs₂) :
    build_cues_with_drum_info segments tempo lead_bars diffs₁ feats thr a44 =
      build_cues_with_drum_info segments tempo lead_bars diffs₂ feats thr a44 := by
  cases segments with
  | nil => rfl
  | cons s0 rest =>
    simp only [build_cues_with_drum_info]
    rw [raw_cues_congr (s0 :: rest) tempo lead_bars diffs₁ diffs₂ feats thr a44 h]

/-- C9 witness: the diff with added set snare,kick and the diff with added
set kick,snare produce the identical cue list on the Scenario C segments. -/
theorem claim_C9_witness :
    build_cues_with_drum_info segsC 120 2 [diffP1] featsC (1 / 4) true =
      build_cues_with_drum_info segsC 120 2 [diffP2] featsC (1 / 4) true :=
  claim_C9 segsC 120 2 [diffP1] [diffP2] featsC (1 / 4) true
    (List.Forall₂.cons ⟨by decide, by decide, rfl, rfl⟩ List.Forall₂.nil)

/-- Helper: frame positions in seconds are monotone in the frame index. -/
theorem frameSec_mono (hop sr : ℕ) {a b : ℕ} (h : a ≤ b) :
    frameSec hop sr a ≤ frameSec hop sr b := by
  unfold frameSec
  rcases Nat.eq_zero_or_pos sr with h0 | h0
  · simp [h0]
  · have hc : (0 : ℚ) < (sr : ℚ) := by exact_mod_cast h0
    rw [div_le_div_right hc]
    exact_mod_cast Nat.mul_le_mul_right hop h

/-- Helper: invariant of the silence scan loop.  With a run-start no later
than the current index, the regions produced are pairwise ordered and
non-overlapping, all start at or after the run-start (or current) frame,
and a still-open run starts at or after every produced region's end. -/
theorem silLoop_inv (hop sr : ℕ) (minms : ℚ) :
    ∀ (bs : List Bool) (idx : ℕ) (st : Option ℕ), (∀ s0 ∈ st, s0 ≤ idx) →
      List.Pairwise (fun a b : ℚ × ℚ => a.2 ≤ b.1) (silLoop hop sr minms bs idx st).1 ∧
      (∀ r ∈ (silLoop hop sr minms bs idx st).1,
        frameSec hop sr (st.getD idx) ≤ r.1) ∧
      (∀ s1 ∈ (silLoop hop sr minms bs idx st).2,
        (∀ r ∈ (silLoop hop sr minms bs idx st).1, r.2 ≤ frameSec hop sr s1) ∧
        st.getD idx ≤ s1) := by
  intro bs
  induction bs with
  | nil =>
    intro idx st _
    refine ⟨List.Pairwise.nil, by simp [silLoop], ?_⟩
    intro s1 hs1
    refine ⟨by simp [silLoop], ?_⟩
    have : st = some s1 := hs1
    simp [this]
  | cons b rest ih =>
    intro idx st hst
    cases b with
    | true =>
      cases st with
      | none =>
        have h := ih (idx + 1) (some idx) (by intro s0 h0; cases h0; omega)
        simpa [silLoop] using h
      | some s0 =>
        have hs0 : s0 ≤ idx := hst s0 rfl
        have h := ih (idx + 1) (some s0) (by intro t ht; cases ht; omega)
        simpa [silLoop] using h
    | false =>
      cases st with
      | none =>
        have h := ih (idx + 1) none (by intro s0 h0; cases h0)
        simp only [silLoop, Option.getD_none] at h ⊢
        refine ⟨h.1, ?_, ?_⟩
        · intro r hr
          exact le_trans (frameSec_mono hop sr (Nat.le_succ idx)) (h.2.1 r hr)
        · intro s1 hs1
          exact ⟨(h.2.2 s1 hs1).1, by have := (h.2.2 s1 hs1).2; omega⟩
      | some s0 =>
        have hs0 : s0 ≤ idx := hst s0 rfl
        have h := ih (idx + 1) none (by intro t ht; cases ht)
        simp only [Option.getD_none] at h
        simp only [silLoop, Option.getD_some]
        by_cases hkeep : minms ≤ (frameSec hop sr idx - frameSec hop sr s0) * 1000
        · rw [if_pos hkeep]
          refine ⟨?_, ?_, ?_⟩
          · refine List.Pairwise.cons ?_ h.1
            intro r hr
            exact le_trans (frameSec_mono hop sr (Nat.le_succ idx)) (h.2.1 r hr)
          · intro r hr
            cases hr with
            | head => exact le_refl _
            | tail _ hr => exact le_trans (frameSec_mono hop sr (by omega)) (h.2.1 r hr)
          · intro s1 hs1
            have h3 := h.2.2 s1 hs1
            refine ⟨?_, by omega⟩
            intro r hr
            cases hr with
            | head => exact frameSec_mono hop sr (by omega)
            | tail _ hr => exact h3.1 r hr
        · rw [if_neg hkeep]
          refine ⟨h.1, ?_, ?_⟩
          · intro r hr
            exact le_trans (frameSec_mono hop sr (by omega)) (h.2.1 r hr)
          · intro s1 hs1
            exact ⟨(h.2.2 s1 hs1).1, by have := (h.2.2 s1 hs1).2; omega⟩

/-- Helper: an all-loud mask produces no regions and leaves no open run. -/
theorem silLoop_all_false (hop sr : ℕ) (minms : ℚ) :
    ∀ (bs : List Bool) (idx : ℕ), (∀ b ∈ bs, b = false) →
      silLoop hop sr minms bs idx none = ([], none) := by
  intro bs
  induction bs with
  | nil => intro idx _; rfl
  | cons b rest ih =>
    intro idx hb
    have hbf : b = false := hb b (List.mem_cons_self b rest)
    subst hbf
    simp only [silLoop]
    exact ih (idx + 1) (fun x hx => hb x (List.mem_cons_of_mem _ hx))

/-- Helper: a mask ending in a loud frame leaves no open run. -/
theorem silLoop_getLast_false (hop sr : ℕ) (minms : ℚ) :
    ∀ (bs : List Bool) (idx : ℕ) (st : Option ℕ), bs.getLast? = some false →
      (silLoop hop sr minms bs idx st).2 = none := by
  intro bs
  induction bs with
  | nil => intro idx st hc; cases hc
  | cons x rest ih =>
    intro idx st hc
    cases rest with
    | nil =>
      simp only [List.getLast?_singleton, Option.some.injEq] at hc
      subst hc
      cases st with
      | none => rfl
      | some s0 => rfl
    | cons r rs =>
      have hc' : (r :: rs).getLast? = some false := by
        rwa [List.getLast?_cons_cons] at hc
      cases x with
      | true =>
        cases st with
        | none => exact ih (idx + 1) (some idx) hc'
        | some s0 => exact ih (idx + 1) (some s0) hc'
      | false =>
        cases st with
        | none => exact ih (idx + 1) none hc'
        | some s0 =>
          simp only [silLoop]
          exact ih (idx + 1) none hc'

/-- Helper: a run of silent frames just passes the open-run state through. -/
theorem silLoop_replicate_some (hop sr : ℕ) (minms : ℚ) :
    ∀ (k idx s0 : ℕ),
      silLoop hop sr minms (List.replicate k true) idx (some s0) = ([], some s0) := by
  intro k
  induction k with
  | zero => intro idx s0; rfl
  | succ k ih =>
    intro idx s0
    simp only [List.replicate_succ, silLoop]
    exact ih (idx + 1) s0

/-- Helper: a non-empty run of silent frames with no open run opens one at
the current index and produces no region. -/
theorem silLoop_replicate_none (hop sr : ℕ) (minms : ℚ) (k idx : ℕ) (hk : 0 < k) :
    silLoop hop sr minms (List.replicate k true) idx none = ([], some idx) := by
  cases k with
  | zero => omega
  | succ k =>
    simp only [List.replicate_succ, silLoop]
    exact silLoop_replicate_some hop sr minms k (idx + 1) idx

/-- Helper: the scan loop processes an appended mask compositionally. -/
theorem silLoop_append (hop sr : ℕ) (minms : ℚ) :
    ∀ (xs ys : List Bool) (idx : ℕ) (st : Option ℕ),
      silLoop hop sr minms (xs ++ ys) idx st =
        ((silLoop hop sr minms xs idx st).1 ++
          (silLoop hop sr minms ys (idx + xs.length) (silLoop hop sr minms xs idx st).2).1,
         (silLoop hop sr minms ys (idx + xs.length) (silLoop hop sr minms xs idx st).2).2) := by
  intro xs
  induction xs with
  | nil => intro ys idx st; simp [silLoop]
  | cons x xs ih =>
    intro ys idx st
    have hlen : idx + (x :: xs).length = (idx + 1) + xs.length := by
      simp [List.length_cons]; omega
    cases x with
    | true =>
      cases st with
      | none =>
        simp only [List.cons_append, silLoop, hlen]
        exact ih ys (idx + 1) (some idx)
      | some s0 =>
        simp only [List.cons_append, silLoop, hlen]
        exact ih ys (idx + 1) (some s0)
    | false =>
      cases st with
      | none =>
        simp only [List.cons_append, silLoop, hlen]
        exact ih ys (idx + 1) none
      | some s0 =>
        simp only [List.cons_append, silLoop, hlen, List.append_eq]
        rw [ih ys (idx + 1) none]
        by_cases hkeep : minms ≤ (frameSec hop sr idx - frameSec hop sr s0) * 1000
        · rw [if_pos hkeep, if_pos hkeep]
          simp [List.cons_append]
        · rw [if_neg hkeep, if_neg hkeep]

/-- C4: every region returned by the silence detector lasts at least
0.35 s; the region list is time-ordered and non-overlapping; an all-loud
mask yields no region; and a silent run reaching the end of the mask closes
as a region ending at the waveform duration len(y)/sr (whenever that tail
region survives the two duration thresholds, it is the last region). -/
theorem claim_C4 (silent : List Bool) (hop sr ylen : ℕ) (minms : ℚ) :
    (∀ r ∈ detect_silences silent hop sr ylen minms, 7 / 20 ≤ r.2 - r.1) ∧
    List.Pairwise (fun a b : ℚ × ℚ => a.2 ≤ b.1)
      (detect_silences silent hop sr ylen minms) ∧
    ((∀ b ∈ silent, b = false) → detect_silences silent hop sr ylen minms = []) ∧
    (∀ (xs : List Bool) (k : ℕ),
      silent = xs ++ List.replicate k true → 0 < k →
      (xs = [] ∨ xs.getLast? = some false) →
      minms ≤ ((ylen : ℚ) / (sr : ℚ) - frameSec hop sr xs.length) * 1000 →
      7 / 20 ≤ (ylen : ℚ) / (sr : ℚ) - frameSec hop sr xs.length →
      (detect_silences silent hop sr ylen minms).getLast? =
        some (frameSec hop sr xs.length, (ylen : ℚ) / (sr : ℚ))) := by
  refine ⟨?_, ?_, ?_, ?_⟩
  · intro r hr
    simp only [detect_silences, List.mem_filter, decide_eq_true_eq] at hr
    exact hr.2
  · have hinv := silLoop_inv hop sr minms silent 0 none (by intro s0 h0; cases h0)
    simp only [detect_silences]
    apply List.Pairwise.filter
    rw [List.pairwise_append]
    refine ⟨hinv.1, ?_, ?_⟩
    · cases hp2 : (silLoop hop sr minms silent 0 none).2 with
      | none => simp
      | some s0 =>
        simp only
        split
        · exact List.pairwise_singleton _ _
        · exact List.Pairwise.nil
    · intro a ha b hb
      cases hp2 : (silLoop hop sr minms silent 0 none).2 with
      | none => rw [hp2] at hb; cases hb
      | some s0 =>
        rw [hp2] at hb
        simp only at hb
        have hb' : b = (frameSec hop sr s0, (ylen : ℚ) / (sr : ℚ)) := by
          revert hb
          split
          · intro hb; simpa using hb
          · intro hb; cases hb
        subst hb'
        exact (hinv.2.2 s0 hp2).1 a ha
  · intro hall
    simp [detect_silences, silLoop_all_false hop sr minms silent 0 hall]
  · intro xs k hsplit hk hxs hmin h35
    subst hsplit
    have hst : (silLoop hop sr minms xs 0 none).2 = none := by
      rcases hxs with rfl | hlast
      · rfl
      · exact silLoop_getLast_false hop sr minms xs 0 none hlast
    have happ := silLoop_append hop sr minms xs (List.replicate k true) 0 none
    rw [hst, silLoop_replicate_none hop sr minms k (0 + xs.length) hk] at happ
    simp only [detect_silences, happ, List.append_nil, Nat.zero_add]
    rw [if_pos hmin, List.filter_append]
    have hkeep : decide (7 / 20 ≤ (ylen : ℚ) / (sr : ℚ) - frameSec hop sr xs.length) = true :=
      decide_eq_true h35
    simp only [List.filter_cons, List.filter_nil, hkeep, if_true]
    exact List.getLast?_concat _

/-- C4 witness: a mask of one loud frame followed by eight silent frames at
hop 2205, rate 44100 and 441000 samples closes its tail run at the waveform
duration of 10 s. -/
theorem claim_C4_witness :
    (detect_silences ([false] ++ List.replicate 8 true) 2205 44100 441000 350).getLast? =
      some (frameSec 2205 44100 [false].length, ((441000 : ℕ) : ℚ) / ((44100 : ℕ) : ℚ)) :=
  (claim_C4 ([false] ++ List.replicate 8 true) 2205 44100 441000 350).2.2.2 [false] 8 rfl
    (by decide) (Or.inr rfl) (by with_unfolding_all decide) (by with_unfolding_all decide)

/-- Helper: the beat loop with sufficient fuel produces exactly the
arithmetic progression of beat times below the duration. -/
theorem beatTimesAux_eq (duration bp : ℚ) (hbp : 0 < bp) :
    ∀ (fuel : ℕ) (t : ℚ), ⌈(duration - t) / bp⌉ ≤ (fuel : ℤ) →
      beatTimesAux duration bp fuel t =
        (List.range (⌈(duration - t) / bp⌉).toNat).map (fun k : ℕ => t + (k : ℚ) * bp) := by
  intro fuel
  induction fuel with
  | zero =>
    intro t hc
    have h0 : (⌈(duration - t) / bp⌉).toNat = 0 := by omega
    simp [beatTimesAux, h0]
  | succ fuel ih =>
    intro t hc
    by_cases ht : t < duration
    · have hpos : 0 < (duration - t) / bp := div_pos (by linarith) hbp
      have hc1 : 1 ≤ ⌈(duration - t) / bp⌉ := Int.ceil_pos.mpr hpos
      have hrec : ⌈(duration - (t + bp)) / bp⌉ = ⌈(duration - t) / bp⌉ - 1 := by
        have harg : (duration - (t + bp)) / bp = (duration - t) / bp - 1 := by
          have h1 : duration - (t + bp) = (duration - t) - bp := by ring
          rw [h1, sub_div, div_self (ne_of_gt hbp)]
        rw [harg, Int.ceil_sub_one]
      have hcN : (⌈(duration - t) / bp⌉).toNat = (⌈(duration - (t + bp)) / bp⌉).toNat + 1 := by
        omega
      simp only [beatTimesAux, if_pos ht]
      rw [ih (t + bp) (by push_cast at hc ⊢; omega), hcN, List.range_succ_eq_map,
        List.map_cons, List.map_map]
      congr 1
      · simp
      · apply List.map_congr_left
        intro k _
        simp only [Function.comp_apply]
        push_cast
        ring
    · have h0 : (duration - t) / bp ≤ 0 :=
        div_nonpos_of_nonpos_of_nonneg (by linarith) hbp.le
      have h1 : ⌈(duration - t) / bp⌉ ≤ 0 := Int.ceil_le.mpr (by exact_mod_cast h0)
      have h2 : (⌈(duration - t) / bp⌉).toNat = 0 := by omega
      simp [beatTimesAux, if_neg ht, h2]

/-- Helper: the click buffer always has int(duration*sr) samples. -/
theorem make_click_wav_length (duration : ℚ) (sr : ℕ) (bpm click_hz piQ : ℚ)
    (sinF cosF : ℚ → ℚ) :
    (make_click_wav duration sr bpm click_hz piQ sinF cosF).length =
      (truncQ (duration * (sr : ℚ))).toNat := by
  simp [make_click_wav]

/-- C7: the click synthesizer returns int(duration*sr) samples, every
sample is hard-clipped into [-1, 1], the beat loop writes a burst at every
multiple of 60/bpm seconds below the duration (for any burst contents, sine
and window included), and for bpm 120 and duration 2 s the beat markers are
0, 0.5, 1, 1.5 s with 88200 output samples. -/
theorem claim_C7 (duration : ℚ) (sr : ℕ) (bpm click_hz piQ : ℚ) (sinF cosF : ℚ → ℚ) :
    (make_click_wav duration sr bpm click_hz piQ sinF cosF).length =
      (truncQ (duration * (sr : ℚ))).toNat ∧
    (∀ x ∈ make_click_wav duration sr bpm click_hz piQ sinF cosF, -1 ≤ x ∧ x ≤ 1) ∧
    (0 < bpm → 0 < duration →
      beatTimesAux duration (60 / bpm) (clickFuel duration (60 / bpm)) 0 =
        (List.range (⌈duration * bpm / 60⌉).toNat).map (fun k : ℕ => (k : ℚ) * (60 / bpm))) ∧
    beatTimesAux 2 (60 / 120) (clickFuel 2 (60 / 120)) 0 = [0, 1 / 2, 1, 3 / 2] ∧
    (make_click_wav 2 44100 120 click_hz piQ sinF cosF).length = 88200 := by
  refine ⟨make_click_wav_length duration sr bpm click_hz piQ sinF cosF, ?_, ?_,
    by with_unfolding_all decide, ?_⟩
  · intro x hx
    simp only [make_click_wav, List.mem_map] at hx
    obtain ⟨k, _, rfl⟩ := hx
    constructor
    · exact le_max_left _ _
    · exact max_le (by norm_num) (min_le_left _ _)
  · intro hbpm hdur
    have hbp : 0 < 60 / bpm := div_pos (by norm_num) hbpm
    have hfuel : ⌈(duration - 0) / (60 / bpm)⌉ ≤ (clickFuel duration (60 / bpm) : ℤ) := by
      simp only [clickFuel, sub_zero]
      have h := Int.self_le_toNat ⌈duration / (60 / bpm)⌉
      push_cast
      omega
    rw [beatTimesAux_eq duration (60 / bpm) hbp (clickFuel duration (60 / bpm)) 0 hfuel]
    have harg : (duration - 0) / (60 / bpm) = duration * bpm / 60 := by
      rw [sub_zero, div_div_eq_mul_div]
    rw [harg]
    apply List.map_congr_left
    intro k _
    simp
  · rw [make_click_wav_length]
    with_unfolding_all decide

/-- C7 witness: the beat-marker description instantiated at bpm 120,
duration 2 s, with a zero burst. -/
theorem claim_C7_witness :
    beatTimesAux 2 (60 / 120) (clickFuel 2 (60 / 120)) 0 =
      (List.range (⌈(2 : ℚ) * 120 / 60⌉).toNat).map (fun k : ℕ => (k : ℚ) * (60 / 120)) :=
  (claim_C7 2 44100 120 2000 0 (fun _ => 0) (fun _ => 0)).2.2.1 (by norm_num) (by norm_num)

end DrummersCue
